import Mathlib

/-!
IntArray: a dynamic array of integers

Shallow embedding of `data_structures/arrays/dynamic_arrays/IntArray.go`.

* The Go slice `arr []int` is embedded as its visible contents, a `List Int`.
  The backing storage is owned by the `IntArray` alone and is never aliased, so
  the hidden capacity behind the slice is not observable through any method.
* Go `int` indices and results are `Int`; element values are never used in
  arithmetic, only compared, so they are plain `Int` as well.
* A method with a pointer receiver that mutates the array returns the array
  after the call next to its Go result (explicit state passing).
* A Go `error` result is `Option Error`, `none` being `nil`.
* The three standard-library routines the file calls (`sort.Search`,
  `sort.Ints`, `fmt.Sprintf` with `%v`) are embedded after the Go standard
  library, see their doc comments.
-/

namespace IntArrayGo

/-- The two error values the file builds with `fmt.Errorf`. -/
inductive Error where
  /-- Value `fmt.Errorf("index out of bounds")`. -/
  | indexOutOfBounds
  /-- Value `fmt.Errorf("element not found")`. -/
  | elementNotFound
deriving DecidableEq, Repr

/-- Text carried by each error value. -/
def Error.message : Error → String
  | .indexOutOfBounds => "index out of bounds"
  | .elementNotFound => "element not found"

/-- The struct `IntArray`: one field, the slice `arr`. -/
structure IntArray where
  /-- Visible contents of the slice, in index order. -/
  arr : List Int
deriving DecidableEq, Repr

/-- Go `NewIntArray`: the array over the empty slice `[]int{}`. -/
def NewIntArray : IntArray := ⟨[]⟩

namespace IntArray

/-- Go `Size`: `len(ia.arr)`. -/
def Size (ia : IntArray) : Int := (ia.arr.length : Int)

/-- Go `IsEmpty`: `len(ia.arr) == 0`. -/
def IsEmpty (ia : IntArray) : Bool := ia.arr.length == 0

/-- Go `Get`: the pair `(0, error)` when `index < 0 || index >= len(ia.arr)`,
else `(ia.arr[index], nil)`. The element read happens under the guard, which is
what makes the index a valid position of the list. -/
def Get (ia : IntArray) (index : Int) : Int × Option Error :=
  if h : index < 0 ∨ index ≥ (ia.arr.length : Int) then
    (0, some Error.indexOutOfBounds)
  else
    (ia.arr.get ⟨index.toNat, by omega⟩, none)

/-- Go `Set`: the error when `index < 0 || index >= len(ia.arr)`, leaving the array
as it is; else `ia.arr[index] = elem` and `nil`. -/
def Set (ia : IntArray) (index : Int) (elem : Int) : IntArray × Option Error :=
  if index < 0 ∨ index ≥ (ia.arr.length : Int) then
    (ia, some Error.indexOutOfBounds)
  else
    (⟨ia.arr.set index.toNat elem⟩, none)

/-- Go `Add`: `ia.arr = append(ia.arr, elem)`. -/
def Add (ia : IntArray) (elem : Int) : IntArray := ⟨ia.arr ++ [elem]⟩

/-- Go `RemoveAt`: the error when `index < 0 || index >= len(ia.arr)`; else
`ia.arr = append(ia.arr[:index], ia.arr[index+1:]...)` and `nil`. -/
def RemoveAt (ia : IntArray) (index : Int) : IntArray × Option Error :=
  if index < 0 ∨ index ≥ (ia.arr.length : Int) then
    (ia, some Error.indexOutOfBounds)
  else
    (⟨ia.arr.take index.toNat ++ ia.arr.drop (index.toNat + 1)⟩, none)

/-- The `for i, e := range ia.arr` loop of `Remove`, from position `i` on, with
`rest` the elements not yet visited: at the first `e == elem` it calls
`ia.RemoveAt(i)`, drops that call's error and returns `nil`; when the range is
exhausted it returns the not-found error. -/
def removeLoop (ia : IntArray) (elem : Int) : List Int → Nat → IntArray × Option Error
  | [], _ => (ia, some Error.elementNotFound)
  | e :: rest, i =>
    if e = elem then ((ia.RemoveAt (i : Int)).1, none)
    else removeLoop ia elem rest (i + 1)

/-- Go `Remove`: the range loop over the whole slice, starting at index 0. -/
def Remove (ia : IntArray) (elem : Int) : IntArray × Option Error :=
  removeLoop ia elem ia.arr 0

end IntArray

/-- Loop of `sort.Search` as the Go standard library writes it:
`for i < j { h := int(uint(i+j) >> 1); if !f(h) { i = h + 1 } else { j = h } }`
followed by `return i`. Both bounds stay within `0 .. n` with `n` a slice
length, below `2^63`, so `i + j` fits the unsigned word and `h` is the exact
half (`midpoint_exact` below). The predicate may fail (`none`): a Go closure
that indexes out of range panics, and the panic ends the search. -/
def searchLoop (f : Nat → Option Bool) (i j : Nat) : Option Nat :=
  if i < j then
    match f ((i + j) / 2) with
    | none => none
    | some false => searchLoop f ((i + j) / 2 + 1) j
    | some true => searchLoop f i ((i + j) / 2)
  else some i
termination_by j - i
decreasing_by all_goals omega

/-- The standard library's `sort.Search(n, f)`: `i, j := 0, n`, then the loop. -/
def Search (n : Nat) (f : Nat → Option Bool) : Option Nat := searchLoop f 0 n

/-- Insertion of `x` before the first element that is not below it. -/
def insertInt (x : Int) : List Int → List Int
  | [] => [x]
  | y :: ys => if x ≤ y then x :: y :: ys else y :: insertInt x ys

/-- Modelled from the spec: the body of `sort.Ints` belongs to the Go standard
library and is not among the sources. The spec has `Sort` reorder the elements
into non-decreasing order in place, which is also the documented result of
`sort.Ints`. Integers that compare equal are the same value, so that result is
one determined list whatever algorithm the library runs (`sortInts_unique`
below); insertion sort computes it. -/
def sortInts : List Int → List Int
  | [] => []
  | x :: xs => insertInt x (sortInts xs)

/-- The verb `%v` of package `fmt` on one `int`: base 10, `-` before a negative. -/
def fmtInt (x : Int) : String := toString x

/-- The verb `%v` of package `fmt` on a slice: `[elem0 elem1 ...]`, the elements
formatted in turn, one space between neighbours, inside square brackets. -/
def sprintfV (s : List Int) : String := "[" ++ " ".intercalate (s.map fmtInt) ++ "]"

namespace IntArray

/-- Go `BinarySearch`: `index := sort.Search(len(ia.arr), func(i) { ia.arr[i] >= key })`,
then `index` when `index < len(ia.arr) && ia.arr[index] == key`, else `-1`.
Every element read is checked: `none` stands for the run-time panic of an index
out of range. -/
def BinarySearch (ia : IntArray) (key : Int) : Option Int :=
  match Search ia.arr.length (fun i => (ia.arr[i]?).map (fun x => decide (x ≥ key))) with
  | none => none
  | some index =>
    if index < ia.arr.length then
      match ia.arr[index]? with
      | none => none
      | some v => if v = key then some (index : Int) else some (-1)
    else some (-1)

/-- Go `Sort` (a reserved word here, hence the underscore): `sort.Ints(ia.arr)`. -/
def Sort_ (ia : IntArray) : IntArray := ⟨sortInts ia.arr⟩

/-- Go `String`: `fmt.Sprintf("%v", ia.arr)`. -/
def String (ia : IntArray) : String := sprintfV ia.arr

end IntArray

/-- The array `main` holds when it starts printing: `NewIntArray()`, then
`Add(3)`, `Add(7)`, `Add(6)`, `Add(-2)`, then `Sort()`. -/
def mainArray : IntArray := ((((NewIntArray.Add 3).Add 7).Add 6).Add (-2)).Sort_

/-- Element read `s[i]` with the run-time check of Go: `none` stands for the
panic of an index out of range. -/
def readAt (s : List Int) (i : Int) : Option Int :=
  if i < 0 then none else s[i.toNat]?

/-- Element write `s[i] = v` with the run-time check of Go: `none` stands for
the panic of an index out of range. -/
def writeAt (s : List Int) (i : Int) (v : Int) : Option (List Int) :=
  if 0 ≤ i ∧ i < (s.length : Int) then some (s.set i.toNat v) else none

/-- The loop of `Reverse` from the pair of indices `i`, `j`: while `i < j` the
tuple assignment `ia.arr[i], ia.arr[j] = ia.arr[j], ia.arr[i]` reads both
operands, then writes position `i`, then position `j`; the step is
`i, j = i+1, j-1`. -/
def reverseLoop (arr : List Int) (i j : Int) : Option (List Int) :=
  if i < j then
    match readAt arr j, readAt arr i with
    | some x, some y =>
      match writeAt arr i x with
      | some arr1 =>
        match writeAt arr1 j y with
        | some arr2 => reverseLoop arr2 (i + 1) (j - 1)
        | none => none
      | none => none
    | _, _ => none
  else some arr
termination_by (j - i).toNat
decreasing_by all_goals omega

/-- Go `Reverse`: the loop started at `i, j := 0, len(ia.arr)-1`. The result is
`none` if an element access of the loop were out of range. -/
def IntArray.Reverse (ia : IntArray) : Option IntArray :=
  (reverseLoop ia.arr 0 ((ia.arr.length : Int) - 1)).map IntArray.mk

/-- The call `ia.RemoveAt(i)` that the range loop of `Remove` makes, if it makes
one: the index it passes and the error that call returns (and `Remove` drops).
Same traversal as `removeLoop`. -/
def removeInnerCall (ia : IntArray) (elem : Int) : List Int → Nat → Option (Int × Option Error)
  | [], _ => none
  | e :: rest, i =>
    if e = elem then some ((i : Int), (ia.RemoveAt (i : Int)).2)
    else removeInnerCall ia elem rest (i + 1)

/-- One call a user of the array can make that may change it. -/
inductive Op where
  /-- Call `Add(elem)`. -/
  | add (elem : Int)
  /-- Call `Set(index, elem)`. -/
  | set (index elem : Int)
  /-- Call `RemoveAt(index)`. -/
  | removeAt (index : Int)
  /-- Call `Remove(elem)`. -/
  | remove (elem : Int)
  /-- Call `Reverse()`. -/
  | reverse
  /-- Call `Sort()`. -/
  | sort
deriving DecidableEq, Repr

/-- Whether the call is an `Add`. -/
def Op.isAdd : Op → Bool
  | .add _ => true
  | _ => false

/-- An array together with the tally of the calls made on it so far: the
number of `Add` calls and the number of `RemoveAt`/`Remove` calls that returned
`nil`. -/
structure Tally where
  /-- The array after the calls. -/
  ia : IntArray
  /-- Number of `Add` calls. -/
  adds : Nat
  /-- Number of `RemoveAt` and `Remove` calls that returned `nil`. -/
  removals : Nat
deriving DecidableEq, Repr

/-- One call made on the tallied array; `none` if the call panics. -/
def Tally.step (t : Tally) : Op → Option Tally
  | .add elem => some ⟨t.ia.Add elem, t.adds + 1, t.removals⟩
  | .set index elem => some ⟨(t.ia.Set index elem).1, t.adds, t.removals⟩
  | .removeAt index =>
    some ⟨(t.ia.RemoveAt index).1, t.adds,
      if (t.ia.RemoveAt index).2 = none then t.removals + 1 else t.removals⟩
  | .remove elem =>
    some ⟨(t.ia.Remove elem).1, t.adds,
      if (t.ia.Remove elem).2 = none then t.removals + 1 else t.removals⟩
  | .reverse => (t.ia.Reverse).map (fun r => ⟨r, t.adds, t.removals⟩)
  | .sort => some ⟨t.ia.Sort_, t.adds, t.removals⟩

/-- The calls of `ops` made in order, starting from the tallied array `t`. -/
def Tally.run (t : Tally) : List Op → Option Tally
  | [] => some t
  | op :: ops => (t.step op).bind (fun t1 => t1.run ops)

/-- The calls of `ops` made in order on a fresh `NewIntArray()`. -/
def runOps (ops : List Op) : Option Tally := Tally.run ⟨NewIntArray, 0, 0⟩ ops

/-! ## The sorting routine -/

theorem insertInt_perm (x : Int) (l : List Int) : (insertInt x l).Perm (x :: l) := by
  induction l with
  | nil => exact List.Perm.refl _
  | cons y ys ih =>
    unfold insertInt
    split
    · exact List.Perm.refl _
    · exact (List.Perm.cons y ih).trans (List.Perm.swap x y ys)

theorem insertInt_pairwise (x : Int) (l : List Int) (hl : l.Pairwise (· ≤ ·)) :
    (insertInt x l).Pairwise (· ≤ ·) := by
  induction l with
  | nil => simp [insertInt]
  | cons y ys ih =>
    have hy := List.pairwise_cons.mp hl
    unfold insertInt
    split
    · rename_i hxy
      refine List.pairwise_cons.mpr ⟨?_, hl⟩
      intro z hz
      rcases List.mem_cons.mp hz with rfl | hz
      · exact hxy
      · exact le_trans hxy (hy.1 z hz)
    · rename_i hxy
      refine List.pairwise_cons.mpr ⟨?_, ih hy.2⟩
      intro z hz
      rcases List.mem_cons.mp ((insertInt_perm x ys).subset hz) with rfl | hz
      · omega
      · exact hy.1 z hz

theorem sortInts_perm (l : List Int) : (sortInts l).Perm l := by
  induction l with
  | nil => exact List.Perm.refl _
  | cons x xs ih => exact (insertInt_perm x (sortInts xs)).trans (List.Perm.cons x ih)

theorem sortInts_pairwise (l : List Int) : (sortInts l).Pairwise (· ≤ ·) := by
  induction l with
  | nil => exact List.Pairwise.nil
  | cons x xs ih => exact insertInt_pairwise x (sortInts xs) ih

/-- Any list that holds the elements of `l` in non-decreasing order is
`sortInts l`: the result of sorting integers does not depend on the algorithm. -/
theorem sortInts_unique (l s : List Int) (hp : s.Perm l) (hs : s.Pairwise (· ≤ ·)) :
    s = sortInts l :=
  List.eq_of_perm_of_sorted (hp.trans (sortInts_perm l).symm) hs (sortInts_pairwise l)

/-- Reading a valid position through `Get` gives the list element there. -/
theorem get_of_lt (a : IntArray) (i : Nat) (h : i < a.arr.length) :
    a.Get (i : Int) = (a.arr[i], none) := by
  unfold IntArray.Get
  have hn : ¬ ((i : Int) < 0 ∨ (i : Int) ≥ (a.arr.length : Int)) := by omega
  rw [dif_neg hn]
  simp

/-- C2: `Sort()` leaves the array in non-decreasing order (the element read at
`i` is at most the element read at `j` for all `0 <= i < j < Size()`), and the
new contents are a permutation of the old: same length, every value with the
same number of occurrences. -/
theorem sort_ordered_permutation (a : IntArray) :
    (∀ i j : Int, 0 ≤ i → i < j → j < a.Sort_.Size →
      (a.Sort_.Get i).2 = none ∧ (a.Sort_.Get j).2 = none ∧
      (a.Sort_.Get i).1 ≤ (a.Sort_.Get j).1) ∧
    a.Sort_.arr.Perm a.arr ∧
    a.Sort_.Size = a.Size ∧
    (∀ v : Int, a.Sort_.arr.count v = a.arr.count v) := by
  refine ⟨?_, sortInts_perm a.arr, ?_, fun v => (sortInts_perm a.arr).count_eq v⟩
  · intro i j hi hij hj
    have hj' : j < (a.Sort_.arr.length : Int) := hj
    obtain ⟨m, rfl⟩ := Int.eq_ofNat_of_zero_le hi
    obtain ⟨n, rfl⟩ := Int.eq_ofNat_of_zero_le (by omega : (0 : Int) ≤ j)
    have hn : n < a.Sort_.arr.length := by omega
    have hm : m < a.Sort_.arr.length := by omega
    rw [get_of_lt _ m hm, get_of_lt _ n hn]
    refine ⟨rfl, rfl, ?_⟩
    exact List.pairwise_iff_getElem.mp (sortInts_pairwise a.arr) m n hm hn (by omega)
  · unfold IntArray.Size
    exact congrArg _ (sortInts_perm a.arr).length_eq

/-- C3: the array of `main` (`Add(3)`, `Add(7)`, `Add(6)`, `Add(-2)`, `Sort()`)
holds `-2, 3, 6, 7`, and `String()` renders it as `[-2 3 6 7]`, the elements
separated by one space and no comma; the result differs from the text
`[-2, 3, 6, 7]` that the comment in `main` announces. -/
theorem main_string_no_commas :
    mainArray.arr = [-2, 3, 6, 7] ∧
    mainArray.String = "[-2 3 6 7]" ∧
    mainArray.String ≠ "[-2, 3, 6, 7]" := by
  decide

/-! ## The search routine -/

/-- The midpoint `int(uint(i+j) >> 1)` of `sort.Search`, taken in the 64-bit
unsigned word, is the exact half of `i + j` for bounds below `2^63`. -/
theorem midpoint_exact (i j : Nat) (hij : i ≤ j) (hj : j < 9223372036854775808) :
    (i + j) % 18446744073709551616 / 2 = (i + j) / 2 := by
  rw [Nat.mod_eq_of_lt (by omega)]

/-- The loop of `sort.Search` on a predicate that is defined and monotone on
`0 .. n`: from bounds `i ≤ j ≤ n` with the predicate false below `i` and true
from `j` on, it returns the boundary `r`, false below and true from `r` on. -/
theorem searchLoop_spec (f : Nat → Option Bool) (p : Nat → Bool) (n : Nat)
    (hf : ∀ k, k < n → f k = some (p k))
    (hmono : ∀ k l, k ≤ l → l < n → p k = true → p l = true) :
    ∀ d i j, j - i = d → i ≤ j → j ≤ n →
      (∀ k, k < i → p k = false) → (∀ k, j ≤ k → k < n → p k = true) →
      ∃ r, searchLoop f i j = some r ∧ i ≤ r ∧ r ≤ j ∧
        (∀ k, k < r → p k = false) ∧ (∀ k, r ≤ k → k < n → p k = true) := by
  intro d
  induction d using Nat.strong_induction_on with
  | _ d ih =>
    intro i j hd hij hjn hlo hhi
    rw [searchLoop]
    by_cases hlt : i < j
    · rw [if_pos hlt]
      have hm : (i + j) / 2 < n := by omega
      rw [hf _ hm]
      cases hp : p ((i + j) / 2) with
      | false =>
        have hlo' : ∀ k, k < (i + j) / 2 + 1 → p k = false := by
          intro k hk
          cases hk' : p k with
          | false => rfl
          | true =>
            have := hmono k ((i + j) / 2) (by omega) hm hk'
            rw [hp] at this
            exact absurd this (by decide)
        obtain ⟨r, hr, h1, h2, h3, h4⟩ :=
          ih (j - ((i + j) / 2 + 1)) (by omega) ((i + j) / 2 + 1) j rfl (by omega) hjn hlo' hhi
        exact ⟨r, hr, by omega, h2, h3, h4⟩
      | true =>
        have hhi' : ∀ k, (i + j) / 2 ≤ k → k < n → p k = true :=
          fun k hk hkn => hmono _ k hk hkn hp
        obtain ⟨r, hr, h1, h2, h3, h4⟩ :=
          ih ((i + j) / 2 - i) (by omega) i ((i + j) / 2) rfl (by omega) (by omega) hlo hhi'
        exact ⟨r, hr, h1, by omega, h3, h4⟩
    · rw [if_neg hlt]
      have hij' : i = j := by omega
      subst hij'
      exact ⟨i, rfl, le_refl _, le_refl _, hlo, hhi⟩

/-- The search that `BinarySearch` runs, on a list in non-decreasing order:
`sort.Search` returns the first position `r` whose element is `>= key`
(`r = len` when there is none), without reading out of range. -/
theorem search_of_pairwise (l : List Int) (key : Int) (hs : l.Pairwise (· ≤ ·)) :
    ∃ r, Search l.length (fun i => (l[i]?).map (fun x => decide (x ≥ key))) = some r ∧
      r ≤ l.length ∧
      (∀ k v, k < r → l[k]? = some v → v < key) ∧
      (∀ k v, r ≤ k → l[k]? = some v → key ≤ v) := by
  have hf : ∀ k, k < l.length →
      (fun i => (l[i]?).map (fun x => decide (x ≥ key))) k
        = some ((fun k => decide (l.getD k 0 ≥ key)) k) := by
    intro k hk
    simp [List.getElem?_eq_getElem hk, List.getD_eq_getElem l 0 hk]
  have hmono : ∀ k m, k ≤ m → m < l.length →
      (fun k => decide (l.getD k 0 ≥ key)) k = true →
      (fun k => decide (l.getD k 0 ≥ key)) m = true := by
    intro k m hkm hm hk
    have hk' : k < l.length := by omega
    simp only [List.getD_eq_getElem l 0 hk', List.getD_eq_getElem l 0 hm,
      decide_eq_true_eq] at hk ⊢
    rcases Nat.eq_or_lt_of_le hkm with rfl | hlt
    · exact hk
    · have := List.pairwise_iff_getElem.mp hs k m hk' hm hlt
      omega
  obtain ⟨r, hr, _, h2, h3, h4⟩ :=
    searchLoop_spec _ _ l.length hf hmono l.length 0 l.length rfl (Nat.zero_le _) (le_refl _)
      (fun k hk => absurd hk (Nat.not_lt_zero k)) (fun k hk hkn => absurd hkn (by omega))
  refine ⟨r, hr, h2, ?_, ?_⟩
  · intro k v hk hv
    have hkl : k < l.length := by omega
    have := h3 k hk
    rw [List.getElem?_eq_getElem hkl] at hv
    simp only [List.getD_eq_getElem l 0 hkl, decide_eq_false_iff_not] at this
    have hv' : l[k] = v := Option.some.inj hv
    omega
  · intro k v hk hv
    have hkl : k < l.length := by
      by_contra hc
      rw [List.getElem?_eq_none (by omega)] at hv
      exact absurd hv (by simp)
    have := h4 k hk hkl
    rw [List.getElem?_eq_getElem hkl] at hv
    simp only [List.getD_eq_getElem l 0 hkl, decide_eq_true_eq] at this
    have hv' : l[k] = v := Option.some.inj hv
    omega

/-- Result of `BinarySearch` on contents in non-decreasing order: the first
position of `key` when it occurs, every earlier element being below `key`;
`-1` when it does not occur. No read is out of range. -/
theorem binarySearch_of_pairwise (a : IntArray) (key : Int) (hs : a.arr.Pairwise (· ≤ ·)) :
    (key ∈ a.arr → ∃ i : Nat, a.BinarySearch key = some (i : Int) ∧ a.arr[i]? = some key ∧
      (∀ k v, k < i → a.arr[k]? = some v → v < key)) ∧
    (key ∉ a.arr → a.BinarySearch key = some (-1)) := by
  obtain ⟨r, hr, hrn, hlo, hhi⟩ := search_of_pairwise a.arr key hs
  have hmem : key ∈ a.arr → r < a.arr.length ∧ a.arr[r]? = some key := by
    intro hk
    obtain ⟨m, hm, hmk⟩ := List.mem_iff_getElem.mp hk
    have hm? : a.arr[m]? = some key := by rw [List.getElem?_eq_getElem hm, hmk]
    have hrm : r ≤ m := by
      by_contra hc
      have := hlo m key (by omega) hm?
      omega
    have hrl : r < a.arr.length := by omega
    refine ⟨hrl, ?_⟩
    have h1 : key ≤ a.arr[r] := hhi r _ (le_refl _) (List.getElem?_eq_getElem hrl)
    have h2 : a.arr[r] ≤ key := by
      rcases Nat.eq_or_lt_of_le hrm with heq | hlt
      · subst heq
        omega
      · have := List.pairwise_iff_getElem.mp hs r m hrl hm hlt
        omega
    rw [List.getElem?_eq_getElem hrl]
    exact congrArg some (le_antisymm h2 h1)
  constructor
  · intro hk
    obtain ⟨hrl, hrk⟩ := hmem hk
    refine ⟨r, ?_, hrk, hlo⟩
    unfold IntArray.BinarySearch
    rw [hr]
    simp only [hrl, if_true, hrk]
  · intro hk
    unfold IntArray.BinarySearch
    rw [hr]
    by_cases hrl : r < a.arr.length
    · have hne : a.arr[r] ≠ key := fun h => hk (h ▸ List.getElem_mem hrl)
      simp only [hrl, if_true, List.getElem?_eq_getElem hrl, hne, if_false]
    · simp only [hrl, if_false]

/-- C1: after `Sort()`, `BinarySearch(key)` returns an index `i` with
`0 <= i < Size()` and `Get(i) == key` whenever `key` is an element of the
array, and returns `-1` whenever it is not. -/
theorem sort_then_binarySearch (a : IntArray) (key : Int) :
    (key ∈ a.arr → ∃ i : Int, a.Sort_.BinarySearch key = some i ∧
      0 ≤ i ∧ i < a.Sort_.Size ∧ a.Sort_.Get i = (key, none)) ∧
    (key ∉ a.arr → a.Sort_.BinarySearch key = some (-1)) := by
  have hcore := binarySearch_of_pairwise a.Sort_ key (sortInts_pairwise a.arr)
  have hiff : key ∈ a.Sort_.arr ↔ key ∈ a.arr := (sortInts_perm a.arr).mem_iff
  constructor
  · intro hk
    obtain ⟨i, hbs, hget, _⟩ := hcore.1 (hiff.mpr hk)
    obtain ⟨hi, hv⟩ := List.getElem?_eq_some_iff.mp hget
    refine ⟨(i : Int), hbs, Int.ofNat_nonneg i, ?_, ?_⟩
    · unfold IntArray.Size
      exact Int.ofNat_lt.mpr hi
    · rw [get_of_lt _ i hi, hv]
  · intro hk
    exact hcore.2 (fun h => hk (hiff.mp h))

/-- C9: on contents already in non-decreasing order, `BinarySearch(key)`
returns the smallest index whose element equals `key` when `key` occurs (every
element before it is below `key`, so it is also the first position whose value
is `>= key`), and `-1` when `key` does not occur. -/
theorem binarySearch_first_index (a : IntArray) (key : Int)
    (hs : a.arr.Pairwise (· ≤ ·)) :
    (key ∈ a.arr → ∃ i : Nat, a.BinarySearch key = some (i : Int) ∧
      (i : Int) < a.Size ∧ a.Get (i : Int) = (key, none) ∧
      (∀ k : Nat, k < i → (a.Get (k : Int)).2 = none ∧ (a.Get (k : Int)).1 < key)) ∧
    (key ∉ a.arr → a.BinarySearch key = some (-1)) := by
  have hcore := binarySearch_of_pairwise a key hs
  refine ⟨?_, hcore.2⟩
  intro hk
  obtain ⟨i, hbs, hget, hlo⟩ := hcore.1 hk
  obtain ⟨hi, hv⟩ := List.getElem?_eq_some_iff.mp hget
  refine ⟨i, hbs, ?_, ?_, ?_⟩
  · unfold IntArray.Size
    exact Int.ofNat_lt.mpr hi
  · rw [get_of_lt _ i hi, hv]
  · intro k hki
    have hkl : k < a.arr.length := by omega
    rw [get_of_lt _ k hkl]
    exact ⟨rfl, hlo k _ hki (List.getElem?_eq_getElem hkl)⟩

/-! ## Indexed access and removal -/

/-- Go `Get` at a non-negative index is the checked list lookup. -/
theorem get_natCast (a : IntArray) (i : Nat) :
    a.Get (i : Int) =
      match a.arr[i]? with
      | some v => (v, none)
      | none => (0, some Error.indexOutOfBounds) := by
  by_cases h : i < a.arr.length
  · rw [get_of_lt a i h, List.getElem?_eq_getElem h]
  · have hn : (i : Int) < 0 ∨ (i : Int) ≥ (a.arr.length : Int) := by omega
    unfold IntArray.Get
    rw [dif_pos hn, List.getElem?_eq_none (by omega)]

/-- Go `RemoveAt` at a valid position erases that position of the list. -/
theorem removeAt_of_lt (a : IntArray) (i : Nat) (h : i < a.arr.length) :
    a.RemoveAt (i : Int) = (⟨a.arr.eraseIdx i⟩, none) := by
  have hn : ¬ ((i : Int) < 0 ∨ (i : Int) ≥ (a.arr.length : Int)) := by omega
  unfold IntArray.RemoveAt
  rw [if_neg hn, List.eraseIdx_eq_take_drop_succ]
  simp

/-- The range loop of `Remove` when `elem` is among the elements still to
visit: it stops at the first of them, `m` places further on, and hands that
index to `RemoveAt`. -/
theorem removeLoop_found (ia : IntArray) (elem : Int) :
    ∀ (rest : List Int) (i : Nat), elem ∈ rest →
      ∃ m, m < rest.length ∧ rest[m]? = some elem ∧
        (∀ k, k < m → rest[k]? ≠ some elem) ∧
        IntArray.removeLoop ia elem rest i = ((ia.RemoveAt ((i + m : Nat) : Int)).1, none) := by
  intro rest
  induction rest with
  | nil => intro i h; exact absurd h (List.not_mem_nil _)
  | cons e rest ih =>
    intro i h
    by_cases he : e = elem
    · refine ⟨0, by simp, by simp [he], fun k hk => absurd hk (Nat.not_lt_zero k), ?_⟩
      simp [IntArray.removeLoop, he]
    · have hmem : elem ∈ rest := by
        rcases List.mem_cons.mp h with h1 | h1
        · exact absurd h1.symm he
        · exact h1
      obtain ⟨m, hm, hget, hfirst, hloop⟩ := ih (i + 1) hmem
      refine ⟨m + 1, by simp [hm], by simpa using hget, ?_, ?_⟩
      · intro k hk
        cases k with
        | zero => simpa using he
        | succ k => simpa using hfirst k (by omega)
      · rw [IntArray.removeLoop, if_neg he, hloop]
        have : i + 1 + m = i + (m + 1) := by omega
        rw [this]

/-- The range loop of `Remove` when `elem` is not among the elements still to
visit: the array is returned as it was, with the not-found error. -/
theorem removeLoop_absent (ia : IntArray) (elem : Int) :
    ∀ (rest : List Int) (i : Nat), elem ∉ rest →
      IntArray.removeLoop ia elem rest i = (ia, some Error.elementNotFound) := by
  intro rest
  induction rest with
  | nil => intro i _; rfl
  | cons e rest ih =>
    intro i h
    have he : ¬ e = elem := fun hc => h (hc ▸ List.mem_cons_self e rest)
    have hmem : elem ∉ rest := fun hc => h (List.mem_cons_of_mem e hc)
    rw [IntArray.removeLoop, if_neg he, ih (i + 1) hmem]

/-- Go `Remove` of a value that occurs: success, through `RemoveAt` at the first
index `i` holding the value. -/
theorem remove_of_mem (a : IntArray) (value : Int) (h : value ∈ a.arr) :
    ∃ i : Nat, i < a.arr.length ∧ a.arr[i]? = some value ∧
      (∀ k, k < i → a.arr[k]? ≠ some value) ∧
      a.Remove value = ((a.RemoveAt (i : Int)).1, none) ∧
      a.RemoveAt (i : Int) = (⟨a.arr.eraseIdx i⟩, none) := by
  obtain ⟨m, hm, hget, hfirst, hloop⟩ := removeLoop_found a value a.arr 0 h
  refine ⟨m, hm, hget, hfirst, ?_, removeAt_of_lt a m hm⟩
  unfold IntArray.Remove
  rw [hloop, Nat.zero_add]

/-- Go `Remove` of a value that does not occur: the not-found error, array unchanged. -/
theorem remove_of_not_mem (a : IntArray) (value : Int) (h : value ∉ a.arr) :
    a.Remove value = (a, some Error.elementNotFound) :=
  removeLoop_absent a value a.arr 0 h

/-- C4: for `0 <= index < Size()`, `RemoveAt(index)` succeeds, `Size()` drops
by exactly 1, every element below `index` stays where it was, every element at
a position `j > index` moves to `j - 1`, and the new contents are the old ones
with the one element at `index` deleted. -/
theorem removeAt_valid (a : IntArray) (index : Int) (h0 : 0 ≤ index) (h1 : index < a.Size) :
    (a.RemoveAt index).2 = none ∧
    (a.RemoveAt index).1.Size = a.Size - 1 ∧
    (∀ j : Int, 0 ≤ j → j < index →
      ∃ v, a.Get j = (v, none) ∧ (a.RemoveAt index).1.Get j = (v, none)) ∧
    (∀ j : Int, index < j → j < a.Size →
      ∃ v, a.Get j = (v, none) ∧ (a.RemoveAt index).1.Get (j - 1) = (v, none)) ∧
    (a.RemoveAt index).1.arr = a.arr.eraseIdx index.toNat := by
  obtain ⟨n, rfl⟩ := Int.eq_ofNat_of_zero_le h0
  have hn : n < a.arr.length := by
    unfold IntArray.Size at h1
    omega
  rw [removeAt_of_lt a n hn]
  refine ⟨rfl, ?_, ?_, ?_, ?_⟩
  · unfold IntArray.Size
    simp only [List.length_eraseIdx, hn, if_true]
    omega
  · intro j hj0 hjn
    obtain ⟨m, rfl⟩ := Int.eq_ofNat_of_zero_le hj0
    have hm : m < n := by omega
    have hml : m < a.arr.length := by omega
    refine ⟨a.arr[m], ?_, ?_⟩
    · rw [get_natCast, List.getElem?_eq_getElem hml]
    · rw [get_natCast]
      simp only [List.getElem?_eraseIdx, hm, if_true, List.getElem?_eq_getElem hml]
  · intro j hnj hjs
    obtain ⟨m, rfl⟩ := Int.eq_ofNat_of_zero_le (by omega : (0 : Int) ≤ j)
    have hml : m < a.arr.length := by
      unfold IntArray.Size at hjs
      omega
    obtain ⟨m', rfl⟩ : ∃ m', m = m' + 1 := ⟨m - 1, by omega⟩
    have hcast : ((m' + 1 : Nat) : Int) - 1 = (m' : Int) := by omega
    have hm' : ¬ m' < n := by omega
    refine ⟨a.arr[m' + 1], ?_, ?_⟩
    · rw [get_natCast, List.getElem?_eq_getElem hml]
    · rw [hcast, get_natCast]
      simp only [List.getElem?_eraseIdx, hm', if_false, List.getElem?_eq_getElem hml]
  · simp

theorem removeAt_valid_witness :
    (0 : Int) ≤ 2 ∧ (2 : Int) < (IntArray.mk [-2, 3, 6, 7]).Size ∧
    ((IntArray.mk [-2, 3, 6, 7]).RemoveAt 2).2 = none ∧
    ((IntArray.mk [-2, 3, 6, 7]).RemoveAt 2).1.Size = (IntArray.mk [-2, 3, 6, 7]).Size - 1 ∧
    ((IntArray.mk [-2, 3, 6, 7]).RemoveAt 2).1.arr = [-2, 3, 7] :=
  have h := removeAt_valid (IntArray.mk [-2, 3, 6, 7]) 2 (by decide) (by decide)
  ⟨by decide, by decide, h.1, h.2.1, h.2.2.2.2.trans (by decide)⟩

/-- C5: `Remove(value)` of a value that occurs succeeds and leaves what
`RemoveAt(i)` leaves for `i` the smallest index holding `value`: the contents
before `i` and after `i` in their order, so exactly one occurrence of `value`
is gone and every later occurrence stays. -/
theorem remove_first_occurrence (a : IntArray) (value : Int) (h : value ∈ a.arr) :
    ∃ i : Nat, (i : Int) < a.Size ∧ a.Get (i : Int) = (value, none) ∧
      (∀ k : Nat, k < i → ∃ v, a.Get (k : Int) = (v, none) ∧ v ≠ value) ∧
      (a.RemoveAt (i : Int)).2 = none ∧
      a.Remove value = ((a.RemoveAt (i : Int)).1, none) ∧
      (a.Remove value).1.arr = a.arr.take i ++ a.arr.drop (i + 1) ∧
      (a.Remove value).1.arr.count value + 1 = a.arr.count value := by
  obtain ⟨i, hi, hget, hfirst, hrem, hat⟩ := remove_of_mem a value h
  have hv : a.arr[i] = value := (List.getElem?_eq_some_iff.mp hget).2
  refine ⟨i, ?_, ?_, ?_, ?_, hrem, ?_, ?_⟩
  · unfold IntArray.Size
    exact Int.ofNat_lt.mpr hi
  · rw [get_natCast, hget]
  · intro k hk
    have hkl : k < a.arr.length := by omega
    refine ⟨a.arr[k], ?_, ?_⟩
    · rw [get_natCast, List.getElem?_eq_getElem hkl]
    · intro hc
      exact hfirst k hk (by rw [List.getElem?_eq_getElem hkl, hc])
  · rw [hat]
  · rw [hrem, hat, List.eraseIdx_eq_take_drop_succ]
  · rw [hrem, hat, List.eraseIdx_eq_take_drop_succ]
    have hsplit : a.arr = a.arr.take i ++ value :: a.arr.drop (i + 1) := by
      conv_lhs => rw [← List.take_append_drop i a.arr, List.drop_eq_getElem_cons hi, hv]
    have hc := congrArg (List.count value) hsplit
    simp only [List.count_append, List.count_cons_self] at hc
    simp only [List.count_append]
    omega

theorem remove_first_occurrence_witness :
    (6 : Int) ∈ (IntArray.mk [-2, 3, 6, 7]).arr ∧
    (∃ i : Nat, (IntArray.mk [-2, 3, 6, 7]).Remove 6
        = (((IntArray.mk [-2, 3, 6, 7]).RemoveAt (i : Int)).1, none)) ∧
    (IntArray.mk [-2, 3, 6, 7]).Remove 6 = (IntArray.mk [-2, 3, 7], none) ∧
    (IntArray.mk [5, 1, 5, 5]).Remove 5 = (IntArray.mk [1, 5, 5], none) :=
  ⟨by decide,
   (remove_first_occurrence (IntArray.mk [-2, 3, 6, 7]) 6 (by decide)).imp
     (fun _ hi => hi.2.2.2.2.1),
   by decide, by decide⟩

/-- C6: `Get(index)`, `Set(index, v)` and `RemoveAt(index)` each return the
index-out-of-bounds error exactly when `index < 0` or `index >= Size()`, and
succeed (error `nil`) exactly otherwise; so all three fail on an empty array
and at `index == Size()`; a successful `Get(index)` returns the element stored
at that position. -/
theorem bounds_checked (a : IntArray) (index v : Int) :
    ((a.Get index).2 = some Error.indexOutOfBounds ↔ (index < 0 ∨ index ≥ a.Size)) ∧
    ((a.Set index v).2 = some Error.indexOutOfBounds ↔ (index < 0 ∨ index ≥ a.Size)) ∧
    ((a.RemoveAt index).2 = some Error.indexOutOfBounds ↔ (index < 0 ∨ index ≥ a.Size)) ∧
    ((a.Get index).2 = none ↔ (0 ≤ index ∧ index < a.Size)) ∧
    ((a.Set index v).2 = none ↔ (0 ≤ index ∧ index < a.Size)) ∧
    ((a.RemoveAt index).2 = none ↔ (0 ≤ index ∧ index < a.Size)) ∧
    (a.Size = 0 ∨ index = a.Size →
      (a.Get index).2 = some Error.indexOutOfBounds ∧
      (a.Set index v).2 = some Error.indexOutOfBounds ∧
      (a.RemoveAt index).2 = some Error.indexOutOfBounds) ∧
    ((a.Get index).2 = none → a.arr[index.toNat]? = some (a.Get index).1) := by
  unfold IntArray.Size
  by_cases h : index < 0 ∨ index ≥ (a.arr.length : Int)
  · have hn : ¬ (0 ≤ index ∧ index < (a.arr.length : Int)) := by omega
    have hg : a.Get index = (0, some Error.indexOutOfBounds) := by
      unfold IntArray.Get
      rw [dif_pos h]
    have hs : a.Set index v = (a, some Error.indexOutOfBounds) := by
      unfold IntArray.Set
      rw [if_pos h]
    have hr : a.RemoveAt index = (a, some Error.indexOutOfBounds) := by
      unfold IntArray.RemoveAt
      rw [if_pos h]
    rw [hg, hs, hr]
    simp [h, hn]
  · have hn : 0 ≤ index ∧ index < (a.arr.length : Int) := by omega
    have hl : index.toNat < a.arr.length := by omega
    have hg : a.Get index = (a.arr[index.toNat], none) := by
      unfold IntArray.Get
      rw [dif_neg h]
      rfl
    have hs : a.Set index v = (⟨a.arr.set index.toNat v⟩, none) := by
      unfold IntArray.Set
      rw [if_neg h]
    have hr : a.RemoveAt index
        = (⟨a.arr.take index.toNat ++ a.arr.drop (index.toNat + 1)⟩, none) := by
      unfold IntArray.RemoveAt
      rw [if_neg h]
    rw [hg, hs, hr]
    have h3 : ¬ ((a.arr.length : Int) = 0 ∨ index = (a.arr.length : Int)) := by omega
    refine ⟨?_, ?_, ?_, ?_, ?_, ?_, fun hc => absurd hc h3, ?_⟩
    · simp [h]
    · simp [h]
    · simp [h]
    · simp [hn]
    · simp [hn]
    · simp [hn]
    · intro _
      exact List.getElem?_eq_getElem hl

/-- C7: `Remove(value)` returns the element-not-found error if and only if no
element of the array equals `value`. -/
theorem remove_notFound_iff (a : IntArray) (value : Int) :
    (a.Remove value).2 = some Error.elementNotFound ↔ value ∉ a.arr := by
  constructor
  · intro h hmem
    obtain ⟨i, _, _, _, hrem, _⟩ := remove_of_mem a value hmem
    rw [hrem] at h
    exact absurd h (by simp)
  · intro h
    rw [remove_of_not_mem a value h]

/-- C8: a failing `Set(index, v)`, `RemoveAt(index)` or `Remove(value)` leaves
the array exactly as it was before the call. -/
theorem failure_leaves_array (a : IntArray) (index v value : Int) :
    (∀ e, (a.Set index v).2 = some e → (a.Set index v).1 = a) ∧
    (∀ e, (a.RemoveAt index).2 = some e → (a.RemoveAt index).1 = a) ∧
    (∀ e, (a.Remove value).2 = some e → (a.Remove value).1 = a) := by
  refine ⟨?_, ?_, ?_⟩
  · intro e
    unfold IntArray.Set
    split
    · intro _; rfl
    · intro h; exact absurd h (by simp)
  · intro e
    unfold IntArray.RemoveAt
    split
    · intro _; rfl
    · intro h; exact absurd h (by simp)
  · intro e h
    by_cases hmem : value ∈ a.arr
    · obtain ⟨i, _, _, _, hrem, _⟩ := remove_of_mem a value hmem
      rw [hrem] at h
      exact absurd h (by simp)
    · rw [remove_of_not_mem a value hmem]

/-- C9 on the array of the scenario: in `[-2, 3, 6, 7]`, `BinarySearch(6)` is 2
and `BinarySearch(5)` is `-1`. -/
theorem binarySearch_first_index_witness :
    (IntArray.mk [-2, 3, 6, 7]).arr.Pairwise (· ≤ ·) ∧
    ((6 : Int) ∉ (IntArray.mk [-2, 3, 6, 7]).arr →
      (IntArray.mk [-2, 3, 6, 7]).BinarySearch 6 = some (-1)) ∧
    (IntArray.mk [-2, 3, 6, 7]).BinarySearch 5 = some (-1) ∧
    (IntArray.mk [-2, 3, 6, 7]).BinarySearch 6 = some 2 :=
  ⟨by decide,
   (binarySearch_first_index (IntArray.mk [-2, 3, 6, 7]) 6 (by decide)).2,
   (binarySearch_first_index (IntArray.mk [-2, 3, 6, 7]) 5 (by decide)).2 (by decide),
   by simp [IntArray.BinarySearch, Search, searchLoop]⟩

/-- C10: for `0 <= i < Size()`, `Set(i, v)` succeeds and `Get(i)` right after it
succeeds and returns `v`. -/
theorem get_after_set (a : IntArray) (i v : Int) (h0 : 0 ≤ i) (h1 : i < a.Size) :
    (a.Set i v).2 = none ∧ (a.Set i v).1.Get i = (v, none) := by
  obtain ⟨n, rfl⟩ := Int.eq_ofNat_of_zero_le h0
  have hn : n < a.arr.length := by
    unfold IntArray.Size at h1
    omega
  have hguard : ¬ ((n : Int) < 0 ∨ (n : Int) ≥ (a.arr.length : Int)) := by omega
  have hs : a.Set (n : Int) v = (⟨a.arr.set n v⟩, none) := by
    unfold IntArray.Set
    rw [if_neg hguard]
    simp
  rw [hs]
  refine ⟨rfl, ?_⟩
  rw [get_natCast]
  simp only [List.getElem?_set_self hn]

theorem get_after_set_witness :
    (0 : Int) ≤ 1 ∧ (1 : Int) < (IntArray.mk [-2, 3, 7]).Size ∧
    ((IntArray.mk [-2, 3, 7]).Set 1 5).2 = none ∧
    ((IntArray.mk [-2, 3, 7]).Set 1 5).1.Get 1 = (5, none) :=
  ⟨by decide, by decide, get_after_set (IntArray.mk [-2, 3, 7]) 1 5 (by decide) (by decide)⟩

/-! ## Reversal -/

theorem readAt_natCast (s : List Int) (k : Nat) : readAt s (k : Int) = s[k]? := by
  have h : ¬ ((k : Int) < 0) := by omega
  unfold readAt
  rw [if_neg h, Int.toNat_ofNat]

theorem writeAt_of_lt (s : List Int) (k : Nat) (v : Int) (h : k < s.length) :
    writeAt s (k : Int) v = some (s.set k v) := by
  have h' : 0 ≤ (k : Int) ∧ (k : Int) < (s.length : Int) := by omega
  unfold writeAt
  rw [if_pos h', Int.toNat_ofNat]

/-- One round of the loop of `Reverse` at valid indices `i < j`: the two
elements are exchanged and the loop goes on from `i + 1`, `j - 1`. -/
theorem reverseLoop_step (arr : List Int) (i j : Nat) (hij : i < j) (hj : j < arr.length) :
    reverseLoop arr (i : Int) (j : Int)
      = reverseLoop ((arr.set i (arr.getD j 0)).set j (arr.getD i 0))
          ((i + 1 : Nat) : Int) ((j - 1 : Nat) : Int) := by
  have hi : i < arr.length := by omega
  have hlt : (i : Int) < (j : Int) := by omega
  have hj1 : j < (arr.set i (arr.getD j 0)).length := by rw [List.length_set]; exact hj
  rw [reverseLoop, if_pos hlt, readAt_natCast, readAt_natCast,
    List.getElem?_eq_getElem hj, List.getElem?_eq_getElem hi]
  simp only
  rw [List.getD_eq_getElem arr 0 hj, List.getD_eq_getElem arr 0 hi] at *
  rw [writeAt_of_lt arr i _ hi]
  simp only
  rw [writeAt_of_lt _ j _ hj1]
  simp only
  have e1 : (i : Int) + 1 = ((i + 1 : Nat) : Int) := by omega
  have e2 : (j : Int) - 1 = ((j - 1 : Nat) : Int) := by omega
  rw [e1, e2]

/-- The loop of `Reverse` from indices `i`, `j` inside the slice: it ends
without a panic, keeps the length, mirrors the positions `i .. j` and leaves
the others. -/
theorem reverseLoop_spec :
    ∀ (d : Nat) (arr : List Int) (i j : Nat), j - i = d → (i < j → j < arr.length) →
      ∃ res, reverseLoop arr (i : Int) (j : Int) = some res ∧ res.length = arr.length ∧
        ∀ k : Nat, res[k]? = if i ≤ k ∧ k ≤ j then arr[i + j - k]? else arr[k]? := by
  intro d
  induction d using Nat.strong_induction_on with
  | _ d ih =>
    intro arr i j hd hjl
    by_cases hij : i < j
    · have hj := hjl hij
      have hi : i < arr.length := by omega
      rw [reverseLoop_step arr i j hij hj]
      obtain ⟨res, hres, hlen, hk⟩ :=
        ih (j - 1 - (i + 1)) (by omega) ((arr.set i (arr.getD j 0)).set j (arr.getD i 0))
          (i + 1) (j - 1) rfl (by intro _; simp only [List.length_set]; omega)
      refine ⟨res, hres, by rw [hlen]; simp, ?_⟩
      intro k
      rw [hk k]
      rw [List.getD_eq_getElem arr 0 hj, List.getD_eq_getElem arr 0 hi]
      by_cases h1 : i + 1 ≤ k ∧ k ≤ j - 1
      · have h2 : i ≤ k ∧ k ≤ j := by omega
        have e : i + 1 + (j - 1) - k = i + j - k := by omega
        rw [if_pos h1, if_pos h2, e]
        rw [List.getElem?_set_ne (by omega), List.getElem?_set_ne (by omega)]
      · rw [if_neg h1]
        by_cases hki : k = i
        · subst hki
          have h2 : k ≤ k ∧ k ≤ j := by omega
          have e : k + j - k = j := by omega
          rw [if_pos h2, e, List.getElem?_set_ne (by omega),
            List.getElem?_set_self hi, List.getElem?_eq_getElem hj]
        · by_cases hkj : k = j
          · subst hkj
            have h2 : i ≤ k ∧ k ≤ k := by omega
            have e : i + k - k = i := by omega
            rw [if_pos h2, e, List.getElem?_set_self (by rw [List.length_set]; exact hj),
              List.getElem?_eq_getElem hi]
          · have h2 : ¬ (i ≤ k ∧ k ≤ j) := by omega
            rw [if_neg h2, List.getElem?_set_ne (fun h => hkj h.symm),
              List.getElem?_set_ne (fun h => hki h.symm)]
    · have hlt : ¬ ((i : Int) < (j : Int)) := by omega
      rw [reverseLoop, if_neg hlt]
      refine ⟨arr, rfl, rfl, ?_⟩
      intro k
      by_cases h2 : i ≤ k ∧ k ≤ j
      · have e : i + j - k = k := by omega
        rw [if_pos h2, e]
      · rw [if_neg h2]

/-- Go `Reverse` never panics and leaves the elements in the reverse order. -/
theorem reverse_eq (a : IntArray) : a.Reverse = some ⟨a.arr.reverse⟩ := by
  unfold IntArray.Reverse
  by_cases hn : a.arr.length = 0
  · have hnil : a.arr = [] := List.length_eq_zero.mp hn
    have hlt : ¬ ((0 : Int) < ((([] : List Int).length : Int) - 1)) := by simp
    rw [hnil, reverseLoop, if_neg hlt]
    rfl
  · have e : (a.arr.length : Int) - 1 = ((a.arr.length - 1 : Nat) : Int) := by omega
    have e0 : (0 : Int) = ((0 : Nat) : Int) := rfl
    rw [e, e0]
    obtain ⟨res, hres, hlen, hk⟩ :=
      reverseLoop_spec (a.arr.length - 1 - 0) a.arr 0 (a.arr.length - 1) rfl (by omega)
    rw [hres]
    have hrev : res = a.arr.reverse := by
      apply List.ext_getElem?
      intro k
      rw [hk k]
      by_cases hkl : k < a.arr.length
      · have h2 : 0 ≤ k ∧ k ≤ a.arr.length - 1 := by omega
        have e : 0 + (a.arr.length - 1) - k = a.arr.length - 1 - k := by omega
        rw [if_pos h2, e, List.getElem?_reverse hkl]
      · have h2 : ¬ (0 ≤ k ∧ k ≤ a.arr.length - 1) := by omega
        rw [if_neg h2, List.getElem?_eq_none (by omega : a.arr.length ≤ k),
          List.getElem?_eq_none (by rw [List.length_reverse]; omega)]
    rw [hrev]
    rfl

/-- The loop of `Reverse` run on `[1, 2, 3, 4, 5]` and on the empty array. -/
theorem reverse_example :
    (IntArray.mk [1, 2, 3, 4, 5]).Reverse = some ⟨[5, 4, 3, 2, 1]⟩ ∧
    (IntArray.mk []).Reverse = some ⟨[]⟩ := by
  constructor <;> simp [IntArray.Reverse, reverseLoop, readAt, writeAt]

/-- C14: calling `Reverse()` twice in a row restores exactly the original
contents, and neither call panics. -/
theorem reverse_twice (a : IntArray) :
    a.Reverse.bind IntArray.Reverse = some a := by
  rw [reverse_eq a, Option.some_bind, reverse_eq]
  simp

/-- C15: `Reverse()` keeps `Size()`, and the element at position `i` afterwards
is the element that was at position `n - 1 - i` before, for every
`0 <= i < n`; on an empty or single-element array nothing changes. -/
theorem reverse_mirrors (a : IntArray) :
    ∃ r, a.Reverse = some r ∧ r.Size = a.Size ∧
      (∀ i : Int, 0 ≤ i → i < a.Size →
        ∃ w, a.Get (a.Size - 1 - i) = (w, none) ∧ r.Get i = (w, none)) ∧
      (a.Size ≤ 1 → r = a) := by
  refine ⟨⟨a.arr.reverse⟩, reverse_eq a, ?_, ?_, ?_⟩
  · unfold IntArray.Size
    simp
  · intro i h0 h1
    unfold IntArray.Size at h1 ⊢
    obtain ⟨n, rfl⟩ := Int.eq_ofNat_of_zero_le h0
    have hn : n < a.arr.length := by omega
    have hm : a.arr.length - 1 - n < a.arr.length := by omega
    have e : (a.arr.length : Int) - 1 - (n : Int) = ((a.arr.length - 1 - n : Nat) : Int) := by
      omega
    refine ⟨a.arr[a.arr.length - 1 - n], ?_, ?_⟩
    · rw [e, get_natCast, List.getElem?_eq_getElem hm]
    · rw [get_natCast]
      simp only [List.getElem?_reverse hn, List.getElem?_eq_getElem hm]
  · intro h
    unfold IntArray.Size at h
    have hl : a.arr.length ≤ 1 := by omega
    have hr : a.arr.reverse = a.arr := by
      match hm : a.arr with
      | [] => rfl
      | [x] => rfl
      | x :: y :: rest =>
        rw [hm] at hl
        simp at hl
    rw [hr]

/-- Go `Set` at a valid position writes that position of the list. -/
theorem set_of_lt (a : IntArray) (n : Nat) (v : Int) (h : n < a.arr.length) :
    a.Set (n : Int) v = (⟨a.arr.set n v⟩, none) := by
  have hguard : ¬ ((n : Int) < 0 ∨ (n : Int) ≥ (a.arr.length : Int)) := by omega
  unfold IntArray.Set
  rw [if_neg hguard]
  simp

/-- C11: a successful `Set(i, v)` changes only slot `i`: `Size()` is the same
and `Get(j)` returns what it returned before for every valid `j` other than
`i`. -/
theorem set_changes_one_slot (a : IntArray) (i v : Int) (h0 : 0 ≤ i) (h1 : i < a.Size) :
    (a.Set i v).2 = none ∧ (a.Set i v).1.Size = a.Size ∧
    (∀ j : Int, j ≠ i → 0 ≤ j → j < a.Size →
      ∃ w, a.Get j = (w, none) ∧ (a.Set i v).1.Get j = (w, none)) := by
  obtain ⟨n, rfl⟩ := Int.eq_ofNat_of_zero_le h0
  unfold IntArray.Size at h1 ⊢
  have hn : n < a.arr.length := by omega
  rw [set_of_lt a n v hn]
  refine ⟨rfl, by simp, ?_⟩
  intro j hji hj0 hj1
  obtain ⟨m, rfl⟩ := Int.eq_ofNat_of_zero_le hj0
  have hm : m < a.arr.length := by omega
  have hne : n ≠ m := fun h => hji (by rw [h])
  refine ⟨a.arr[m], ?_, ?_⟩
  · rw [get_natCast, List.getElem?_eq_getElem hm]
  · rw [get_natCast]
    simp only [List.getElem?_set_ne hne, List.getElem?_eq_getElem hm]

theorem set_changes_one_slot_witness :
    (0 : Int) ≤ 1 ∧ (1 : Int) < (IntArray.mk [-2, 3, 7]).Size ∧
    ((IntArray.mk [-2, 3, 7]).Set 1 5).2 = none ∧
    ((IntArray.mk [-2, 3, 7]).Set 1 5).1.Size = (IntArray.mk [-2, 3, 7]).Size ∧
    ((IntArray.mk [-2, 3, 7]).Set 1 5).1.arr = [-2, 5, 7] :=
  have h := set_changes_one_slot (IntArray.mk [-2, 3, 7]) 1 5 (by decide) (by decide)
  ⟨by decide, by decide, h.1, h.2.1, by decide⟩

/-- C12: `Add(v)` has no failure result and yields the old contents followed
by `v`: `Size()` grows by exactly 1, `Get(old Size())` returns `v`, and `Get(j)`
is unchanged for every `j` below the old `Size()`. -/
theorem add_appends (a : IntArray) (v : Int) :
    (a.Add v).arr = a.arr ++ [v] ∧
    (a.Add v).Size = a.Size + 1 ∧
    (a.Add v).Get a.Size = (v, none) ∧
    (∀ j : Int, 0 ≤ j → j < a.Size →
      ∃ w, a.Get j = (w, none) ∧ (a.Add v).Get j = (w, none)) := by
  unfold IntArray.Size
  refine ⟨rfl, ?_, ?_, ?_⟩
  · simp [IntArray.Add]
  · rw [get_natCast]
    simp [IntArray.Add]
  · intro j hj0 hj1
    obtain ⟨m, rfl⟩ := Int.eq_ofNat_of_zero_le hj0
    have hm : m < a.arr.length := by omega
    refine ⟨a.arr[m], ?_, ?_⟩
    · rw [get_natCast, List.getElem?_eq_getElem hm]
    · rw [get_natCast]
      simp only [IntArray.Add, List.getElem?_append_left hm, List.getElem?_eq_getElem hm]

/-- C16: calling `Sort()` twice in a row gives exactly the contents that one
call gives. -/
theorem sort_idempotent (a : IntArray) : a.Sort_.Sort_ = a.Sort_ := by
  unfold IntArray.Sort_
  exact congrArg IntArray.mk
    (sortInts_unique (sortInts a.arr) (sortInts a.arr) (List.Perm.refl _)
      (sortInts_pairwise a.arr)).symm

/-- C20: the result of `Sort()` depends only on the multiset of elements:
`Reverse()` followed by `Sort()` gives what `Sort()` alone gives, and two arrays
that are permutations of each other have identical contents after `Sort()`. -/
theorem sort_depends_on_multiset (a b : IntArray) :
    a.Reverse.map IntArray.Sort_ = some a.Sort_ ∧
    (a.arr.Perm b.arr → a.Sort_ = b.Sort_) := by
  have hperm : ∀ x y : List Int, x.Perm y → sortInts x = sortInts y := fun x y h =>
    sortInts_unique y (sortInts x) ((sortInts_perm x).trans h) (sortInts_pairwise x)
  constructor
  · rw [reverse_eq a, Option.map_some']
    unfold IntArray.Sort_
    exact congrArg (fun l => some (IntArray.mk l)) (hperm _ _ (List.reverse_perm a.arr))
  · intro h
    unfold IntArray.Sort_
    exact congrArg IntArray.mk (hperm _ _ h)

/-- C19: `Add(v)` followed by `RemoveAt(Size()-1)` succeeds and restores exactly
the old contents; when `v` does not occur in them, `Add(v)` followed by
`Remove(v)` restores them as well. -/
theorem add_then_remove_restores (a : IntArray) (v : Int) :
    (a.Add v).RemoveAt ((a.Add v).Size - 1) = (a, none) ∧
    (v ∉ a.arr → (a.Add v).Remove v = (a, none)) := by
  have hlen : (a.Add v).arr.length = a.arr.length + 1 := by simp [IntArray.Add]
  have hlast : (a.Add v).RemoveAt ((a.arr.length : Nat) : Int) = (a, none) := by
    rw [removeAt_of_lt (a.Add v) a.arr.length (by omega)]
    simp [IntArray.Add, List.eraseIdx_eq_take_drop_succ]
  constructor
  · have e : (a.Add v).Size - 1 = ((a.arr.length : Nat) : Int) := by
      unfold IntArray.Size
      omega
    rw [e, hlast]
  · intro hv
    have hmem : v ∈ (a.Add v).arr := by simp [IntArray.Add]
    obtain ⟨i, hi, hget, _, hrem, _⟩ := remove_of_mem (a.Add v) v hmem
    have hil : i = a.arr.length := by
      by_contra hne
      have hlt : i < a.arr.length := by omega
      have : (a.Add v).arr[i]? = a.arr[i]? := by
        simp only [IntArray.Add, List.getElem?_append_left hlt]
      rw [this, List.getElem?_eq_getElem hlt] at hget
      exact hv ((Option.some.inj hget) ▸ List.getElem_mem hlt)
    rw [hrem, hil, hlast]

/-! ## Safety of the search and of the inner removal -/

/-- The loop of `sort.Search` on a predicate that is defined on `0 .. n`, with
no assumption of monotonicity: from bounds `i ≤ j ≤ n` it asks the predicate
only inside `0 .. n` and returns a position between `i` and `j`. -/
theorem searchLoop_total (f : Nat → Option Bool) (n : Nat)
    (hf : ∀ k, k < n → ∃ b, f k = some b) :
    ∀ d i j, j - i = d → i ≤ j → j ≤ n →
      ∃ r, searchLoop f i j = some r ∧ i ≤ r ∧ r ≤ j := by
  intro d
  induction d using Nat.strong_induction_on with
  | _ d ih =>
    intro i j hd hij hjn
    rw [searchLoop]
    by_cases hlt : i < j
    · rw [if_pos hlt]
      obtain ⟨b, hb⟩ := hf ((i + j) / 2) (by omega)
      rw [hb]
      cases b with
      | false =>
        obtain ⟨r, hr, h1, h2⟩ :=
          ih (j - ((i + j) / 2 + 1)) (by omega) ((i + j) / 2 + 1) j rfl (by omega) hjn
        exact ⟨r, hr, by omega, h2⟩
      | true =>
        obtain ⟨r, hr, h1, h2⟩ :=
          ih ((i + j) / 2 - i) (by omega) i ((i + j) / 2) rfl (by omega) (by omega)
        exact ⟨r, hr, h1, by omega⟩
    · rw [if_neg hlt]
      exact ⟨i, rfl, le_refl _, hij⟩

/-- C17: on any contents, sorted or not, `BinarySearch(key)` ends without an
element access out of range, and its result is either `-1` or an index `r` with
`0 <= r < Size()` whose element equals `key`. -/
theorem binarySearch_safe (a : IntArray) (key : Int) :
    ∃ r : Int, a.BinarySearch key = some r ∧
      (r = -1 ∨ (0 ≤ r ∧ r < a.Size ∧ a.Get r = (key, none))) := by
  have hf : ∀ k, k < a.arr.length →
      ∃ b, (fun i => (a.arr[i]?).map (fun x => decide (x ≥ key))) k = some b := by
    intro k hk
    exact ⟨decide (a.arr[k] ≥ key), by simp [List.getElem?_eq_getElem hk]⟩
  obtain ⟨r, hr, _, hrn⟩ :=
    searchLoop_total _ a.arr.length hf a.arr.length 0 a.arr.length rfl (Nat.zero_le _)
      (le_refl _)
  unfold IntArray.BinarySearch Search
  rw [hr]
  by_cases hrl : r < a.arr.length
  · by_cases hv : a.arr[r] = key
    · refine ⟨(r : Int), ?_, Or.inr ⟨Int.ofNat_nonneg r, ?_, ?_⟩⟩
      · simp only [hrl, if_true, List.getElem?_eq_getElem hrl, hv]
      · unfold IntArray.Size
        exact Int.ofNat_lt.mpr hrl
      · rw [get_of_lt a r hrl, hv]
    · refine ⟨-1, ?_, Or.inl rfl⟩
      simp only [hrl, if_true, List.getElem?_eq_getElem hrl, hv, if_false]
  · refine ⟨-1, ?_, Or.inl rfl⟩
    simp only [hrl, if_false]

/-- On contents that are not in order the search may miss a key that is there:
in `[3, 1, 2]`, `BinarySearch(1)` is `-1`. -/
theorem binarySearch_unsorted_example :
    (1 : Int) ∈ (IntArray.mk [3, 1, 2]).arr ∧
    (IntArray.mk [3, 1, 2]).BinarySearch 1 = some (-1) :=
  ⟨by decide, by simp [IntArray.BinarySearch, Search, searchLoop]⟩

/-- The range loop of `Remove` and the record of its inner call agree: the loop
returns what `RemoveAt` leaves at the recorded index with `nil`, or the
unchanged array with the not-found error when no call is made. -/
theorem removeLoop_eq_innerCall (ia : IntArray) (elem : Int) :
    ∀ (rest : List Int) (i : Nat),
      IntArray.removeLoop ia elem rest i =
        match removeInnerCall ia elem rest i with
        | some (k, _) => ((ia.RemoveAt k).1, none)
        | none => (ia, some Error.elementNotFound) := by
  intro rest
  induction rest with
  | nil => intro i; rfl
  | cons e rest ih =>
    intro i
    by_cases he : e = elem
    · simp [IntArray.removeLoop, removeInnerCall, he]
    · rw [IntArray.removeLoop, removeInnerCall, if_neg he, if_neg he, ih (i + 1)]

/-- The inner call of the range loop is made at an index between the position
`i` the traversal started from and the end of the elements still to visit. -/
theorem removeInnerCall_range (ia : IntArray) (elem : Int) :
    ∀ (rest : List Int) (i : Nat) (k : Int) (e : Option Error),
      removeInnerCall ia elem rest i = some (k, e) →
      ∃ m : Nat, k = (m : Int) ∧ i ≤ m ∧ m < i + rest.length ∧ e = (ia.RemoveAt (m : Int)).2 := by
  intro rest
  induction rest with
  | nil =>
    intro i k e h
    simp [removeInnerCall] at h
  | cons x rest ih =>
    intro i k e h
    by_cases hx : x = elem
    · rw [removeInnerCall, if_pos hx] at h
      have hk := Option.some.inj h
      refine ⟨i, (congrArg Prod.fst hk).symm, le_refl _, by simp, ?_⟩
      exact (congrArg Prod.snd hk).symm
    · rw [removeInnerCall, if_neg hx] at h
      obtain ⟨m, hm, h1, h2, h3⟩ := ih (i + 1) k e h
      exact ⟨m, hm, by omega, by simp only [List.length_cons]; omega, h3⟩

/-- C18: the index that `Remove` passes to `RemoveAt` always satisfies
`0 <= i < Size()`, so the inner call returns `nil`; `Remove` itself returns
`nil` or the element-not-found error, never the index-out-of-bounds error. -/
theorem remove_inner_call_valid (a : IntArray) (value : Int) :
    (∀ (i : Int) (e : Option Error), removeInnerCall a value a.arr 0 = some (i, e) →
      0 ≤ i ∧ i < a.Size ∧ e = none) ∧
    (a.Remove value =
      match removeInnerCall a value a.arr 0 with
      | some (i, _) => ((a.RemoveAt i).1, none)
      | none => (a, some Error.elementNotFound)) ∧
    ((a.Remove value).2 = none ∨ (a.Remove value).2 = some Error.elementNotFound) ∧
    (a.Remove value).2 ≠ some Error.indexOutOfBounds := by
  have hlink := removeLoop_eq_innerCall a value a.arr 0
  refine ⟨?_, hlink, ?_, ?_⟩
  · intro i e h
    obtain ⟨m, rfl, _, hm, he⟩ := removeInnerCall_range a value a.arr 0 i e h
    have hml : m < a.arr.length := by omega
    refine ⟨Int.ofNat_nonneg m, ?_, ?_⟩
    · unfold IntArray.Size
      exact Int.ofNat_lt.mpr hml
    · rw [he, removeAt_of_lt a m hml]
  · by_cases hmem : value ∈ a.arr
    · obtain ⟨i, _, _, _, hrem, _⟩ := remove_of_mem a value hmem
      exact Or.inl (by rw [hrem])
    · exact Or.inr (by rw [remove_of_not_mem a value hmem])
  · by_cases hmem : value ∈ a.arr
    · obtain ⟨i, _, _, _, hrem, _⟩ := remove_of_mem a value hmem
      rw [hrem]
      simp
    · rw [remove_of_not_mem a value hmem]
      simp

/-! ## Size along a sequence of calls -/

theorem size_set (a : IntArray) (i v : Int) : (a.Set i v).1.Size = a.Size := by
  unfold IntArray.Set IntArray.Size
  split <;> simp

theorem size_removeAt (a : IntArray) (i : Int) :
    (a.RemoveAt i).1.Size = a.Size - (if (a.RemoveAt i).2 = none then 1 else 0) := by
  unfold IntArray.RemoveAt IntArray.Size
  split
  · simp
  · rename_i h
    simp only [if_true, List.length_append, List.length_take, List.length_drop]
    omega

theorem size_remove (a : IntArray) (v : Int) :
    (a.Remove v).1.Size = a.Size - (if (a.Remove v).2 = none then 1 else 0) := by
  by_cases hmem : v ∈ a.arr
  · obtain ⟨i, hi, _, _, hrem, hat⟩ := remove_of_mem a v hmem
    rw [hrem, hat]
    unfold IntArray.Size
    simp only [if_true, List.length_eraseIdx, hi]
    omega
  · rw [remove_of_not_mem a v hmem]
    simp

/-- One call keeps the balance between `Size()` and the tally, does not panic,
and raises the count of `Add` calls exactly when it is an `Add`. -/
theorem tally_step (t : Tally) (op : Op) :
    ∃ t1, t.step op = some t1 ∧
      t1.ia.Size - (t1.adds : Int) + (t1.removals : Int)
        = t.ia.Size - (t.adds : Int) + (t.removals : Int) ∧
      t1.adds = t.adds + (if op.isAdd then 1 else 0) := by
  cases op with
  | add elem =>
    refine ⟨_, rfl, ?_, by simp [Op.isAdd]⟩
    simp only [IntArray.Size, IntArray.Add, List.length_append, List.length_singleton]
    omega
  | set index elem =>
    refine ⟨_, rfl, ?_, by simp [Op.isAdd]⟩
    simp only [size_set]
  | removeAt index =>
    refine ⟨_, rfl, ?_, by simp [Op.isAdd]⟩
    simp only [size_removeAt]
    split <;> omega
  | remove elem =>
    refine ⟨_, rfl, ?_, by simp [Op.isAdd]⟩
    simp only [size_remove]
    split <;> omega
  | reverse =>
    refine ⟨⟨⟨t.ia.arr.reverse⟩, t.adds, t.removals⟩, ?_, ?_, by simp [Op.isAdd]⟩
    · simp only [Tally.step, reverse_eq, Option.map_some']
    · simp [IntArray.Size]
  | sort =>
    refine ⟨_, rfl, ?_, by simp [Op.isAdd]⟩
    have := (sortInts_perm t.ia.arr).length_eq
    simp only [IntArray.Size, IntArray.Sort_, this]

theorem tally_run (ops : List Op) :
    ∀ t : Tally, ∃ t1, t.run ops = some t1 ∧
      t1.ia.Size - (t1.adds : Int) + (t1.removals : Int)
        = t.ia.Size - (t.adds : Int) + (t.removals : Int) ∧
      t1.adds = t.adds + ops.countP Op.isAdd := by
  induction ops with
  | nil => intro t; exact ⟨t, rfl, rfl, by simp⟩
  | cons op ops ih =>
    intro t
    obtain ⟨t1, h1, hb1, ha1⟩ := tally_step t op
    obtain ⟨t2, h2, hb2, ha2⟩ := ih t1
    refine ⟨t2, ?_, hb2.trans hb1, ?_⟩
    · rw [Tally.run, h1, Option.some_bind, h2]
    · rw [ha2, ha1, List.countP_cons]
      omega

theorem tally_run_adds (vs : List Int) :
    ∀ t : Tally, t.run (vs.map Op.add)
      = some ⟨⟨t.ia.arr ++ vs⟩, t.adds + vs.length, t.removals⟩ := by
  induction vs with
  | nil => intro t; simp [Tally.run]
  | cons v vs ih =>
    intro t
    rw [List.map_cons, Tally.run]
    simp only [Tally.step, Option.some_bind]
    rw [ih]
    simp only [IntArray.Add, List.append_assoc, List.singleton_append, List.length_cons]
    have : t.adds + 1 + vs.length = t.adds + (vs.length + 1) := by omega
    rw [this]

/-- C13: after any finite sequence of `Add`, `Set`, `RemoveAt`, `Remove`,
`Reverse` and `Sort` calls on a fresh `NewIntArray()`, `Size()` equals the
number of `Add` calls minus the number of `RemoveAt`/`Remove` calls that
succeeded; `NewIntArray()` has `Size()` 0 and after exactly `n` `Add` calls
`Size()` is `n`. -/
theorem size_counts_calls (ops : List Op) (vs : List Int) :
    (∃ t, runOps ops = some t ∧
      t.ia.Size = (t.adds : Int) - (t.removals : Int) ∧
      t.adds = ops.countP Op.isAdd) ∧
    NewIntArray.Size = 0 ∧
    (∃ t, runOps (vs.map Op.add) = some t ∧ t.adds = vs.length ∧ t.removals = 0 ∧
      t.ia.Size = (vs.length : Int)) := by
  refine ⟨?_, rfl, ?_⟩
  · obtain ⟨t, ht, hb, ha⟩ := tally_run ops ⟨NewIntArray, 0, 0⟩
    refine ⟨t, ht, ?_, by simpa using ha⟩
    have h0 : (NewIntArray.Size : Int) = 0 := rfl
    simp only [h0] at hb
    omega
  · refine ⟨_, tally_run_adds vs ⟨NewIntArray, 0, 0⟩, by simp, rfl, ?_⟩
    simp [IntArray.Size, NewIntArray]

/-- A run of the scenario with a failing and a succeeding removal: two `Add`
calls, `Remove(3)` succeeds, `RemoveAt(5)` fails, and `Size()` is `2 - 1`. -/
theorem size_counts_calls_example :
    (runOps [.add 3, .add 4, .remove 3, .removeAt 5, .sort, .set 0 1]).map
      (fun t => (t.ia.arr, t.ia.Size, t.adds, t.removals)) = some ([1], 1, 2, 1) := by
  decide

end IntArrayGo
